import Mathlib

/-
Verification of the sliding-tile puzzle engine.

The repository contains two variants of the `Puzzle` class:
* the adjacent-only model (fifteen.js and part_000): cached blank coordinates
  `_blank_x`/`_blank_y`, a slide that is legal exactly when the clicked square is at
  Euclidean distance 1 from the blank, and which swaps the clicked square with the blank;
* the chain-slide model (part_001): the blank position is recomputed from the board via
  `indexOf`, and a slide moves a whole row/column segment by repeated adjacent swaps.

Boards are embedded as `List Nat`; JS array writes become `List.set`, reads become
`List.getD _ _ 0`.  Randomness is embedded by passing the stream of random draws
explicitly (each JS `Math.floor(Math.random() * len)` becomes `c % len` for the next
provided `c`), and the unbounded do-while retry loop of `randomize` consumes one list of
draws per iteration, returning `none` when the provided stream runs out.
-/

/-- JS destructuring swap `[a[i], a[j]] = [a[j], a[i]]` (both reads happen before the
writes), from `Puzzle._swap` of part_001. -/
def listSwap (l : List Nat) (i j : Nat) : List Nat :=
  (l.set i (l.getD j 0)).set j (l.getD i 0)

/-- Engine of the JS `shuffle` function: while the array is nonempty, pick a random
index, push that element, and splice it out.  `fuel` is the initial length of the
array; each iteration removes one element, so this fuel is exact. -/
def shuffleGo : Nat → List Nat → List Nat → List Nat
  | 0, _, _ => []
  | fuel + 1, arr, cs =>
    match arr with
    | [] => []
    | a :: as =>
      let idx := cs.headD 0 % (a :: as).length
      (a :: as).getD idx 0 :: shuffleGo fuel ((a :: as).eraseIdx idx) cs.tail

/-- The JS `shuffle(arr)` function, with the stream of random draws passed explicitly. -/
def shuffleJS (arr : List Nat) (cs : List Nat) : List Nat :=
  shuffleGo arr.length arr cs

/-- `Puzzle.inversions`: for each entry that is not the blank value `size*size-1`,
count the later entries with a smaller value, and sum the counts. -/
def inversions (size : Nat) (board : List Nat) : Nat :=
  (board.enum.map (fun a =>
    if a.2 == size * size - 1 then 0
    else (board.enum.filter (fun b => decide (a.1 < b.1) && decide (b.2 < a.2))).length)).sum

/-- State of the adjacent-only `Puzzle` class (fifteen.js / part_000): the board, the
solved reference board stored at construction, the blank value, and the cached blank
coordinates. -/
structure PuzzleA where
  size : Nat
  board : List Nat
  solvedBoard : List Nat
  blank_val : Nat
  blank_x : Nat
  blank_y : Nat
deriving DecidableEq

/-- The `Puzzle` constructor of fifteen.js: identity board `0..size*size-1`, blank value
`size*size-1`, blank cached at the bottom-right corner. -/
def mkPuzzleA (size : Nat) : PuzzleA where
  size := size
  board := List.range (size * size)
  solvedBoard := List.range (size * size)
  blank_val := size * size - 1
  blank_x := size - 1
  blank_y := size - 1

/-- `Puzzle.solvable` of fifteen.js, reading the cached `_blank_y`. -/
def solvableA (p : PuzzleA) : Bool :=
  (p.size % 2 == 1 && inversions p.size p.board % 2 == 0)
    || (p.size % 2 == 0 && ((p.blank_y % 2 == 1) == (inversions p.size p.board % 2 == 0)))

/-- `Puzzle.solved` of fifteen.js: elementwise comparison with the stored solved board. -/
def solvedA (p : PuzzleA) : Bool :=
  p.board.enum.all fun q => p.solvedBoard[q.1]? == some q.2

/-- `Puzzle.slide` of fifteen.js.  The JS condition `Math.sqrt(dx**2+dy**2) == 1` holds
exactly when `dx^2 + dy^2 = 1` (the squares are exact integers and the square root is
exact at 1), so it is embedded as the squared-distance test over `Int`. -/
def slideA (p : PuzzleA) (id : Nat) : PuzzleA × Bool :=
  let square_x := id % p.size
  let square_y := id / p.size
  if ((square_x : Int) - (p.blank_x : Int)) ^ 2 + ((square_y : Int) - (p.blank_y : Int)) ^ 2 == 1 then
    let board1 := p.board.set (p.size * p.blank_y + p.blank_x) (p.board.getD id 0)
    let board2 := board1.set id p.blank_val
    ({ p with board := board2, blank_x := square_x, blank_y := square_y }, true)
  else
    (p, false)

/-- One iteration of the body of `Puzzle.randomize` of fifteen.js: reshuffle the board
and recompute the cached blank coordinates from the new board. -/
def randomizeStepA (p : PuzzleA) (cs : List Nat) : PuzzleA :=
  let newBoard := shuffleJS p.board cs
  let blank_pos := newBoard.indexOf p.blank_val
  { p with board := newBoard, blank_x := blank_pos % p.size, blank_y := blank_pos / p.size }

/-- `Puzzle.randomize` of fifteen.js: do-while loop that reshuffles until `solvable()`
holds.  One list of random draws is consumed per iteration; `none` means the supplied
randomness ran out before a solvable permutation appeared. -/
def randomizeA : PuzzleA → List (List Nat) → Option PuzzleA
  | _, [] => none
  | p, cs :: rest =>
    let p1 := randomizeStepA p cs
    if solvableA p1 then some p1 else randomizeA p1 rest

/-- State of the chain-slide `Puzzle` class (part_001): no cached blank position. -/
structure PuzzleC where
  size : Nat
  board : List Nat
  blank_val : Nat
deriving DecidableEq

/-- The `Puzzle` constructor of part_001. -/
def mkPuzzleC (size : Nat) : PuzzleC where
  size := size
  board := List.range (size * size)
  blank_val := size * size - 1

/-- `Puzzle._blank_i` of part_001: index of the blank square, via `indexOf`. -/
def blankIC (p : PuzzleC) : Nat := p.board.indexOf p.blank_val

/-- `Puzzle.solvable` of part_001, deriving the blank row from the board. -/
def solvableC (p : PuzzleC) : Bool :=
  (p.size % 2 == 1 && inversions p.size p.board % 2 == 0)
    || (p.size % 2 == 0 && (((blankIC p / p.size) % 2 == 1) == (inversions p.size p.board % 2 == 0)))

/-- `Puzzle.solved` of part_001: elementwise comparison with a freshly built identity
board. -/
def solvedC (p : PuzzleC) : Bool :=
  let solvedState := List.range (p.size * p.size)
  p.board.enum.all fun q => solvedState[q.1]? == some q.2

/-- The `while (j > i) { swap(j, j-step); j -= step }` loops of `Puzzle.slide` of
part_001 (vertical loop with `step = size`, horizontal with `step = 1`).  The fuel is
the starting value of `j`, which bounds the number of iterations whenever `step > 0`. -/
def chainDec : Nat → List Nat → Nat → Nat → Nat → List Nat
  | 0, board, _, _, _ => board
  | fuel + 1, board, j, i, step =>
    if i < j then chainDec fuel (listSwap board j (j - step)) (j - step) i step else board

/-- The `while (j < i) { swap(j, j+step); j += step }` loops of `Puzzle.slide` of
part_001.  The fuel is the target value `i`, which bounds the number of iterations
whenever `step > 0`. -/
def chainInc : Nat → List Nat → Nat → Nat → Nat → List Nat
  | 0, board, _, _, _ => board
  | fuel + 1, board, j, i, step =>
    if j < i then chainInc fuel (listSwap board j (j + step)) (j + step) i step else board

/-- `Puzzle.slide` of part_001: refuse the blank itself, chain-slide along a shared
column or row, refuse everything else. -/
def slideC (p : PuzzleC) (i : Nat) : PuzzleC × Bool :=
  let x := i % p.size
  let y := i / p.size
  let blank_i := blankIC p
  let blank_x := blank_i % p.size
  let blank_y := blank_i / p.size
  if x == blank_x && y == blank_y then
    (p, false)
  else if x == blank_x then
    if blank_i > i then ({ p with board := chainDec blank_i p.board blank_i i p.size }, true)
    else if blank_i < i then ({ p with board := chainInc i p.board blank_i i p.size }, true)
    else (p, true)
  else if y == blank_y then
    if blank_i > i then ({ p with board := chainDec blank_i p.board blank_i i 1 }, true)
    else if blank_i < i then ({ p with board := chainInc i p.board blank_i i 1 }, true)
    else (p, true)
  else (p, false)

/-- `Puzzle.randomize` of part_001 (no blank cache to maintain). -/
def randomizeC : PuzzleC → List (List Nat) → Option PuzzleC
  | _, [] => none
  | p, cs :: rest =>
    let p1 : PuzzleC := { p with board := shuffleJS p.board cs }
    if solvableC p1 then some p1 else randomizeC p1 rest

/-- Step length of a chain slide from position `i` toward blank position `b`:
`size` along a shared column, `1` along a row. -/
def slideStep (size i b : Nat) : Nat := if i % size = b % size then size else 1

/-- Spec-side description of the effect of a legal chain slide (claim C4), written from
the specification text, to be compared with the loop of `Puzzle.slide` of part_001:
cell `i` receives the blank; every cell strictly between `i` and the blank position `b`
on the shared line, inclusive of `i` and exclusive of `b`, shifts one cell toward `b`
(so positions after `i` up to `b` take the value one step before them when `b > i`, and
positions from `b` up to just before `i` take the value one step after them when
`b < i`); all other cells are unchanged. -/
def chainSlideEffect (size bv : Nat) (board : List Nat) (i b q : Nat) : Nat :=
  let s := slideStep size i b
  if q = i then bv
  else if i < b ∧ i < q ∧ q ≤ b ∧ s ∣ (q - i) then board.getD (q - s) 0
  else if b < i ∧ b ≤ q ∧ q < i ∧ s ∣ (i - q) then board.getD (q + s) 0
  else board.getD q 0

/-- States of the adjacent-only engine reachable from construction via any sequence of
slide calls (on valid board positions) and completed randomize calls. -/
inductive ReachA : PuzzleA → Prop
  | init (size : Nat) (h : 2 ≤ size) : ReachA (mkPuzzleA size)
  | slide (p : PuzzleA) (id : Nat) (hid : id < p.size * p.size) (hp : ReachA p) :
      ReachA (slideA p id).1
  | rand (p p' : PuzzleA) (css : List (List Nat)) (hp : ReachA p)
      (h : randomizeA p css = some p') : ReachA p'

/-- States of the chain-slide engine reachable from construction via any sequence of
slide calls (on valid board positions) and completed randomize calls. -/
inductive ReachC : PuzzleC → Prop
  | init (size : Nat) (h : 2 ≤ size) : ReachC (mkPuzzleC size)
  | slide (p : PuzzleC) (i : Nat) (hi : i < p.size * p.size) (hp : ReachC p) :
      ReachC (slideC p i).1
  | rand (p p' : PuzzleC) (css : List (List Nat)) (hp : ReachC p)
      (h : randomizeC p css = some p') : ReachC p'

/-- Invariant of the adjacent-only engine: sensible size, the board is a permutation of
`0..size*size-1`, the blank value is `size*size-1`, the cached blank coordinates are in
range and point at the blank, and the stored solved board is the identity. -/
def InvA (p : PuzzleA) : Prop :=
  2 ≤ p.size ∧
  p.board.Perm (List.range (p.size * p.size)) ∧
  p.blank_val = p.size * p.size - 1 ∧
  p.blank_x < p.size ∧
  p.blank_y < p.size ∧
  p.board.getD (p.size * p.blank_y + p.blank_x) 0 = p.blank_val ∧
  p.solvedBoard = List.range (p.size * p.size)

/-- Invariant of the chain-slide engine. -/
def InvC (p : PuzzleC) : Prop :=
  2 ≤ p.size ∧
  p.board.Perm (List.range (p.size * p.size)) ∧
  p.blank_val = p.size * p.size - 1

/-! Basic list lemmas used throughout. -/

theorem getD_eq_getElem (l : List Nat) (n : Nat) (h : n < l.length) :
    l.getD n 0 = l[n] := by
  simp [List.getD_eq_getElem?_getD, List.getElem?_eq_getElem h]

theorem getD_set_self (l : List Nat) (i a : Nat) (h : i < l.length) :
    (l.set i a).getD i 0 = a := by
  simp [List.getD_eq_getElem?_getD, List.getElem?_set_self h]

theorem getD_set_ne (l : List Nat) {i j : Nat} (a : Nat) (h : i ≠ j) :
    (l.set i a).getD j 0 = l.getD j 0 := by
  simp [List.getD_eq_getElem?_getD, List.getElem?_set_ne h]

theorem length_listSwap (l : List Nat) (i j : Nat) : (listSwap l i j).length = l.length := by
  simp [listSwap]

theorem getD_listSwap_fst (l : List Nat) {i j : Nat} (hi : i < l.length) (hij : i ≠ j) :
    (listSwap l i j).getD i 0 = l.getD j 0 := by
  unfold listSwap
  rw [getD_set_ne _ _ (Ne.symm hij), getD_set_self _ _ _ hi]

theorem getD_listSwap_snd (l : List Nat) {i j : Nat} (hj : j < l.length) :
    (listSwap l i j).getD j 0 = l.getD i 0 := by
  unfold listSwap
  rw [getD_set_self]
  simpa using hj

theorem getD_listSwap_other (l : List Nat) {i j k : Nat} (hki : k ≠ i) (hkj : k ≠ j) :
    (listSwap l i j).getD k 0 = l.getD k 0 := by
  unfold listSwap
  rw [getD_set_ne _ _ (Ne.symm hkj), getD_set_ne _ _ (Ne.symm hki)]

theorem getD_cons_set_perm (t : List Nat) (m a : Nat) (h : m < t.length) :
    (t.getD m 0 :: t.set m a).Perm (a :: t) := by
  induction t generalizing m with
  | nil => simp at h
  | cons b s ih =>
    cases m with
    | zero => simpa using List.Perm.swap a b s
    | succ m =>
      have hm : m < s.length := by simpa using h
      have h1 : (s.getD m 0 :: b :: s.set m a).Perm (b :: s.getD m 0 :: s.set m a) :=
        List.Perm.swap b (s.getD m 0) (s.set m a)
      have h2 : (b :: s.getD m 0 :: s.set m a).Perm (b :: a :: s) :=
        List.Perm.cons b (ih m hm)
      have h3 : (b :: a :: s).Perm (a :: b :: s) := List.Perm.swap a b s
      exact (h1.trans h2).trans h3

theorem listSwap_perm (l : List Nat) (i j : Nat) (hi : i < l.length) (hj : j < l.length) :
    (listSwap l i j).Perm l := by
  induction l generalizing i j with
  | nil => simp at hi
  | cons a t ih =>
    cases i with
    | zero =>
      cases j with
      | zero => simp [listSwap]
      | succ j =>
        have hj' : j < t.length := by simpa using hj
        have : listSwap (a :: t) 0 (j + 1) = t.getD j 0 :: t.set j a := by
          simp [listSwap]
        rw [this]
        exact getD_cons_set_perm t j a hj'
    | succ i =>
      cases j with
      | zero =>
        have hi' : i < t.length := by simpa using hi
        have : listSwap (a :: t) (i + 1) 0 = t.getD i 0 :: t.set i a := by
          simp [listSwap]
        rw [this]
        exact getD_cons_set_perm t i a hi'
      | succ j =>
        have : listSwap (a :: t) (i + 1) (j + 1) = a :: listSwap t i j := by
          simp [listSwap]
        rw [this]
        exact List.Perm.cons a (ih i j (by simpa using hi) (by simpa using hj))

theorem getD_cons_eraseIdx_perm (l : List Nat) (i : Nat) (h : i < l.length) :
    (l.getD i 0 :: l.eraseIdx i).Perm l := by
  have hsplit : l = l.take i ++ l[i] :: l.drop (i + 1) := by
    conv_lhs => rw [← List.take_append_drop i l]
    rw [List.drop_eq_getElem_cons h]
  rw [List.eraseIdx_eq_take_drop_succ, getD_eq_getElem l i h]
  conv_rhs => rw [hsplit]
  exact List.perm_middle.symm

theorem shuffleGo_perm (n : Nat) :
    ∀ (arr cs : List Nat), arr.length ≤ n → (shuffleGo n arr cs).Perm arr := by
  induction n with
  | zero =>
    intro arr cs h
    have : arr = [] := List.length_eq_zero.mp (Nat.le_zero.mp h)
    subst this
    simp [shuffleGo]
  | succ n ih =>
    intro arr cs h
    match arr with
    | [] => simp [shuffleGo]
    | a :: as =>
      have hlen : 0 < (a :: as).length := by simp
      have hidx : cs.headD 0 % (a :: as).length < (a :: as).length :=
        Nat.mod_lt _ hlen
      have herase : ((a :: as).eraseIdx (cs.headD 0 % (a :: as).length)).length ≤ n := by
        rw [List.length_eraseIdx_of_lt hidx]
        simpa using Nat.le_of_succ_le_succ h
      have hperm := ih ((a :: as).eraseIdx (cs.headD 0 % (a :: as).length)) cs.tail herase
      show ((a :: as).getD (cs.headD 0 % (a :: as).length) 0 ::
          shuffleGo n ((a :: as).eraseIdx (cs.headD 0 % (a :: as).length)) cs.tail).Perm (a :: as)
      exact (List.Perm.cons _ hperm).trans
        (getD_cons_eraseIdx_perm (a :: as) (cs.headD 0 % (a :: as).length) hidx)

theorem shuffleJS_perm (arr cs : List Nat) : (shuffleJS arr cs).Perm arr :=
  shuffleGo_perm arr.length arr cs (Nat.le_refl _)

theorem getD_indexOf (l : List Nat) (a : Nat) (h : a ∈ l) :
    l.getD (l.indexOf a) 0 = a := by
  have hlt : l.indexOf a < l.length := List.indexOf_lt_length.mpr h
  rw [getD_eq_getElem l _ hlt]
  exact List.getElem_indexOf hlt

theorem getD_range (n i : Nat) (h : i < n) : (List.range n).getD i 0 = i := by
  rw [getD_eq_getElem _ _ (by simpa using h)]
  simp

/-! Lemmas about the chain-slide loops. -/

theorem chainDec_perm :
    ∀ (fuel : Nat) (l : List Nat) (j i s : Nat), j < l.length →
      (chainDec fuel l j i s).Perm l := by
  intro fuel
  induction fuel with
  | zero => intro l j i s _; simp [chainDec]
  | succ f ih =>
    intro l j i s hj
    by_cases hij : i < j
    · have hjs : j - s < l.length := lt_of_le_of_lt (Nat.sub_le j s) hj
      have hrec := ih (listSwap l j (j - s)) (j - s) i s
        (by rw [length_listSwap]; exact hjs)
      simp only [chainDec, if_pos hij]
      exact hrec.trans (listSwap_perm l j (j - s) hj hjs)
    · simp [chainDec, hij]

theorem chainInc_perm :
    ∀ (fuel : Nat) (l : List Nat) (j i s : Nat), 0 < s → i < l.length → s ∣ (i - j) →
      (chainInc fuel l j i s).Perm l := by
  intro fuel
  induction fuel with
  | zero => intro l j i s _ _ _; simp [chainInc]
  | succ f ih =>
    intro l j i s hs hi hdvd
    by_cases hij : j < i
    · have hstep : s ≤ i - j := Nat.le_of_dvd (by omega) hdvd
      have hjs : j + s ≤ i := by omega
      have hjs' : j + s < l.length := lt_of_le_of_lt hjs hi
      have hj' : j < l.length := by omega
      have hdvd' : s ∣ (i - (j + s)) := by
        have heq : i - (j + s) = i - j - s := by omega
        rw [heq]
        exact Nat.dvd_sub' hdvd (dvd_refl s)
      have hrec := ih (listSwap l j (j + s)) (j + s) i s hs
        (by rw [length_listSwap]; exact hi) hdvd'
      simp only [chainInc, if_pos hij]
      exact hrec.trans (listSwap_perm l j (j + s) hj' hjs')
    · simp [chainInc, hij]

theorem chainDec_spec (i s : Nat) (hs : 0 < s) :
    ∀ (n fuel : Nat) (l : List Nat), n ≤ fuel → i + n * s < l.length →
      ∀ q, q < l.length →
        (chainDec fuel l (i + n * s) i s).getD q 0 =
          if q = i then l.getD (i + n * s) 0
          else if i < q ∧ q ≤ i + n * s ∧ s ∣ (q - i) then l.getD (q - s) 0
          else l.getD q 0 := by
  intro n
  induction n with
  | zero =>
    intro fuel l _ _ q _
    have hres : chainDec fuel l (i + 0 * s) i s = l := by
      cases fuel <;> simp [chainDec]
    rw [hres]
    split_ifs with h1 h2
    · subst h1; simp
    · exact absurd h2.2.1 (by omega)
    · rfl
  | succ n ih =>
    intro fuel l hf hl q hq
    have hmul : (n + 1) * s = n * s + s := Nat.succ_mul n s
    have hj : i < i + (n + 1) * s := by omega
    cases fuel with
    | zero => omega
    | succ f =>
      have hsub : i + (n + 1) * s - s = i + n * s := by omega
      have hstep : chainDec (f + 1) l (i + (n + 1) * s) i s
          = chainDec f (listSwap l (i + (n + 1) * s) (i + n * s)) (i + n * s) i s := by
        simp only [chainDec, if_pos hj, hsub]
      rw [hstep]
      have hlen1 : (listSwap l (i + (n + 1) * s) (i + n * s)).length = l.length :=
        length_listSwap _ _ _
      have hsmall : i + n * s < l.length := by omega
      have hih := ih f (listSwap l (i + (n + 1) * s) (i + n * s))
        (by omega) (by omega) q (by omega)
      rw [hih]
      by_cases hqi : q = i
      · simp only [if_pos hqi]
        exact getD_listSwap_snd l hsmall
      · simp only [if_neg hqi]
        by_cases hqc : i < q ∧ q ≤ i + n * s ∧ s ∣ (q - i)
        · have hqfull : i < q ∧ q ≤ i + (n + 1) * s ∧ s ∣ (q - i) :=
            ⟨hqc.1, by omega, hqc.2.2⟩
          rw [if_pos hqc, if_pos hqfull]
          have h1 : q - s ≠ i + (n + 1) * s := by omega
          have h2 : q - s ≠ i + n * s := by omega
          exact getD_listSwap_other l h1 h2
        · rw [if_neg hqc]
          by_cases hqj : q = i + (n + 1) * s
          · have hqfull : i < q ∧ q ≤ i + (n + 1) * s ∧ s ∣ (q - i) := by
              refine ⟨by omega, by omega, ?_⟩
              have : q - i = (n + 1) * s := by omega
              rw [this]
              exact Dvd.intro_left (n + 1) rfl
            rw [if_pos hqfull]
            have hne : i + (n + 1) * s ≠ i + n * s := by omega
            have := getD_listSwap_fst l (show i + (n + 1) * s < l.length from hl) hne
            rw [hqj, this, hsub]
          · have hqfull : ¬(i < q ∧ q ≤ i + (n + 1) * s ∧ s ∣ (q - i)) := by
              rintro ⟨h1, h2, h3⟩
              rcases le_or_lt q (i + n * s) with hle | hgt
              · exact hqc ⟨h1, hle, h3⟩
              · obtain ⟨m, hm⟩ := h3
                have hq_eq : q = i + s * m := by omega
                have hgt' : n * s < s * m := by omega
                have hle' : s * m ≤ (n + 1) * s := by omega
                have hmn : n < m := by
                  have := hgt'
                  rw [Nat.mul_comm s m] at this
                  exact lt_of_mul_lt_mul_right this (Nat.zero_le s)
                have hmn' : m ≤ n + 1 := by
                  have := hle'
                  rw [Nat.mul_comm s m] at this
                  exact Nat.le_of_mul_le_mul_right this hs
                have : m = n + 1 := by omega
                subst this
                have : s * (n + 1) = (n + 1) * s := Nat.mul_comm _ _
                exact hqj (by omega)
            rw [if_neg hqfull]
            have h1 : q ≠ i + (n + 1) * s := hqj
            have h2 : q ≠ i + n * s := by
              intro hcontra
              rcases Nat.eq_zero_or_pos n with hn0 | hnpos
              · subst hn0; exact hqi (by omega)
              · exact hqc ⟨by nlinarith, by omega, by
                  rw [hcontra]
                  simp only [Nat.add_sub_cancel_left]
                  exact Dvd.intro_left n rfl⟩
            exact getD_listSwap_other l h1 h2

theorem chainInc_spec (s : Nat) (hs : 0 < s) :
    ∀ (n fuel c : Nat) (l : List Nat), n ≤ fuel → c + n * s < l.length →
      ∀ q, q < l.length →
        (chainInc fuel l c (c + n * s) s).getD q 0 =
          if q = c + n * s then l.getD c 0
          else if c ≤ q ∧ q < c + n * s ∧ s ∣ (q - c) then l.getD (q + s) 0
          else l.getD q 0 := by
  intro n
  induction n with
  | zero =>
    intro fuel c l _ _ q _
    have hres : chainInc fuel l c (c + 0 * s) s = l := by
      cases fuel <;> simp [chainInc]
    rw [hres]
    split_ifs with h1 h2
    · subst h1; simp
    · exact absurd h2.2.1 (by omega)
    · rfl
  | succ n ih =>
    intro fuel c l hf hl q hq
    have hmul : (n + 1) * s = n * s + s := Nat.succ_mul n s
    have hj : c < c + (n + 1) * s := by omega
    cases fuel with
    | zero => omega
    | succ f =>
      have htar : c + (n + 1) * s = (c + s) + n * s := by omega
      have hstep : chainInc (f + 1) l c (c + (n + 1) * s) s
          = chainInc f (listSwap l c (c + s)) (c + s) ((c + s) + n * s) s := by
        simp only [chainInc]
        rw [htar, if_pos (show c < c + s + n * s by omega)]
      rw [hstep]
      have hcs : c + s < l.length := by omega
      have hc : c < l.length := by omega
      have hih := ih f (c + s) (listSwap l c (c + s))
        (by omega) (by rw [length_listSwap]; omega) q
        (by rw [length_listSwap]; exact hq)
      rw [hih]
      by_cases hqt : q = c + (n + 1) * s
      · have hqt' : q = (c + s) + n * s := by omega
        simp only [if_pos hqt', if_pos hqt]
        exact getD_listSwap_snd l hcs
      · have hqt' : q ≠ (c + s) + n * s := by omega
        simp only [if_neg hqt, if_neg hqt']
        by_cases hqc : q = c
        · have hnotrec : ¬(c + s ≤ q ∧ q < (c + s) + n * s ∧ s ∣ (q - (c + s))) := by
            rintro ⟨h1, _, _⟩; omega
          have hfull : c ≤ q ∧ q < c + (n + 1) * s ∧ s ∣ (q - c) := by
            refine ⟨by omega, by omega, ?_⟩
            have : q - c = 0 := by omega
            simp [this]
          rw [if_neg hnotrec, if_pos hfull, hqc]
          exact getD_listSwap_fst l hc (by omega)
        · by_cases hfull : c ≤ q ∧ q < c + (n + 1) * s ∧ s ∣ (q - c)
          · have hf1 := hfull.1
            have hf2 := hfull.2.1
            have hf3 := hfull.2.2
            have hcq : c < q := by omega
            have hsq : s ≤ q - c := Nat.le_of_dvd (by omega) hf3
            have hrec : c + s ≤ q ∧ q < (c + s) + n * s ∧ s ∣ (q - (c + s)) := by
              refine ⟨by omega, by omega, ?_⟩
              have heq : q - (c + s) = q - c - s := by omega
              rw [heq]
              exact Nat.dvd_sub' hf3 (dvd_refl s)
            rw [if_pos hrec, if_pos hfull]
            exact getD_listSwap_other l (by omega) (by omega)
          · have hrec : ¬(c + s ≤ q ∧ q < (c + s) + n * s ∧ s ∣ (q - (c + s))) := by
              rintro ⟨h1, h2, h3⟩
              apply hfull
              refine ⟨by omega, by omega, ?_⟩
              have heq : q - c = (q - (c + s)) + s := by omega
              rw [heq]
              exact Nat.dvd_add h3 (dvd_refl s)
            have hqcs : q ≠ c + s := by
              intro hcontra
              rcases Nat.eq_zero_or_pos n with hn0 | hnpos
              · subst hn0; exact hqt (by omega)
              · have hns : 0 < n * s := Nat.mul_pos hnpos hs
                apply hfull
                refine ⟨by omega, by omega, ?_⟩
                have : q - c = s := by omega
                simp [this]
            rw [if_neg hrec, if_neg hfull]
            exact getD_listSwap_other l hqc hqcs

/-! Arithmetic helpers for cell indices. -/

theorem cell_index_lt {size x y : Nat} (hx : x < size) (hy : y < size) :
    size * y + x < size * size := by
  have h1 : size * (y + 1) = size * y + size := Nat.mul_succ size y
  have h2 : size * (y + 1) ≤ size * size := Nat.mul_le_mul_left size hy
  omega

theorem cell_index_mod {size x y : Nat} (hx : x < size) : (size * y + x) % size = x := by
  rw [Nat.mul_add_mod, Nat.mod_eq_of_lt hx]

theorem cell_index_div {size x y : Nat} (hx : x < size) : (size * y + x) / size = y := by
  rw [Nat.mul_add_div (by omega), Nat.div_eq_of_lt hx, Nat.add_zero]

/-! The engine invariants are established by construction and preserved by every
operation. -/

theorem invA_init (size : Nat) (h : 2 ≤ size) : InvA (mkPuzzleA size) := by
  have hpos : 0 < size * size := Nat.mul_pos (by omega) (by omega)
  have hidx : size * (size - 1) + (size - 1) = size * size - 1 := by
    have h1 : size * ((size - 1) + 1) = size * (size - 1) + size := Nat.mul_succ size (size - 1)
    have h2 : (size - 1) + 1 = size := by omega
    rw [h2] at h1
    omega
  refine ⟨h, List.Perm.refl _, rfl, by simp [mkPuzzleA]; omega, by simp [mkPuzzleA]; omega, ?_, rfl⟩
  show (List.range (size * size)).getD (size * (size - 1) + (size - 1)) 0 = size * size - 1
  rw [hidx, getD_range _ _ (by omega)]

theorem invA_slide (p : PuzzleA) (id : Nat) (hid : id < p.size * p.size) (h : InvA p) :
    InvA (slideA p id).1 := by
  obtain ⟨hsz, hperm, hbv, hbx, hby, hcache, hsolved⟩ := h
  have hlen : p.board.length = p.size * p.size :=
    hperm.length_eq.trans (List.length_range _)
  have hbi : p.size * p.blank_y + p.blank_x < p.size * p.size := cell_index_lt hbx hby
  have hbi' : p.size * p.blank_y + p.blank_x < p.board.length := by omega
  have hid' : id < p.board.length := by omega
  simp only [slideA]
  split
  · -- legal move: the two writes are a swap of the clicked cell with the blank cell
    have hswap : (p.board.set (p.size * p.blank_y + p.blank_x) (p.board.getD id 0)).set id
        p.blank_val = listSwap p.board (p.size * p.blank_y + p.blank_x) id := by
      rw [listSwap, hcache]
    refine ⟨hsz, ?_, hbv, ?_, ?_, ?_, hsolved⟩
    · show ((p.board.set (p.size * p.blank_y + p.blank_x) (p.board.getD id 0)).set id
        p.blank_val).Perm (List.range (p.size * p.size))
      rw [hswap]
      exact (listSwap_perm p.board _ id hbi' hid').trans hperm
    · exact Nat.mod_lt id (by omega)
    · show id / p.size < p.size
      rw [Nat.div_lt_iff_lt_mul (by omega)]
      omega
    · show ((p.board.set (p.size * p.blank_y + p.blank_x) (p.board.getD id 0)).set id
        p.blank_val).getD (p.size * (id / p.size) + id % p.size) 0 = p.blank_val
      rw [Nat.div_add_mod id p.size]
      exact getD_set_self _ id _ (by simpa using hid')
  · exact ⟨hsz, hperm, hbv, hbx, hby, hcache, hsolved⟩

theorem invA_randStep (p : PuzzleA) (cs : List Nat) (h : InvA p) :
    InvA (randomizeStepA p cs) := by
  obtain ⟨hsz, hperm, hbv, _, _, _, hsolved⟩ := h
  have hperm' : (shuffleJS p.board cs).Perm (List.range (p.size * p.size)) :=
    (shuffleJS_perm p.board cs).trans hperm
  have hpos : 0 < p.size * p.size := Nat.mul_pos (by omega) (by omega)
  have hbvlt : p.blank_val < p.size * p.size := by omega
  have hmem : p.blank_val ∈ shuffleJS p.board cs := by
    rw [hperm'.mem_iff]
    exact List.mem_range.mpr hbvlt
  have hposlt : (shuffleJS p.board cs).indexOf p.blank_val < (shuffleJS p.board cs).length :=
    List.indexOf_lt_length.mpr hmem
  have hlen : (shuffleJS p.board cs).length = p.size * p.size :=
    hperm'.length_eq.trans (List.length_range _)
  refine ⟨hsz, hperm', hbv, ?_, ?_, ?_, hsolved⟩
  · exact Nat.mod_lt _ (by omega)
  · show (shuffleJS p.board cs).indexOf p.blank_val / p.size < p.size
    rw [Nat.div_lt_iff_lt_mul (by omega)]
    omega
  · show (shuffleJS p.board cs).getD
      (p.size * ((shuffleJS p.board cs).indexOf p.blank_val / p.size)
        + (shuffleJS p.board cs).indexOf p.blank_val % p.size) 0 = p.blank_val
    rw [Nat.div_add_mod _ p.size, getD_eq_getElem _ _ hposlt]
    exact List.getElem_indexOf hposlt

theorem invA_randomizeA :
    ∀ (css : List (List Nat)) (p p' : PuzzleA), InvA p → randomizeA p css = some p' →
      InvA p' := by
  intro css
  induction css with
  | nil => intro p p' _ h; simp [randomizeA] at h
  | cons cs rest ih =>
    intro p p' hp h
    simp only [randomizeA] at h
    by_cases hsv : solvableA (randomizeStepA p cs)
    · rw [if_pos hsv] at h
      have := Option.some.inj h
      exact this ▸ invA_randStep p cs hp
    · rw [if_neg hsv] at h
      exact ih _ _ (invA_randStep p cs hp) h

theorem invA_of_reachA (p : PuzzleA) (h : ReachA p) : InvA p := by
  induction h with
  | init size hsz => exact invA_init size hsz
  | slide p id hid hp ih => exact invA_slide p id hid ih
  | rand p p' css hp h ih => exact invA_randomizeA css p p' ih h

theorem invC_init (size : Nat) (h : 2 ≤ size) : InvC (mkPuzzleC size) :=
  ⟨h, List.Perm.refl _, rfl⟩

theorem invC_slide (p : PuzzleC) (i : Nat) (hi : i < p.size * p.size) (h : InvC p) :
    InvC (slideC p i).1 := by
  obtain ⟨hsz, hperm, hbv⟩ := h
  have hlen : p.board.length = p.size * p.size :=
    hperm.length_eq.trans (List.length_range _)
  have hpos : 0 < p.size * p.size := Nat.mul_pos (by omega) (by omega)
  have hmem : p.blank_val ∈ p.board := by
    rw [hperm.mem_iff]
    exact List.mem_range.mpr (by omega)
  have hblt : blankIC p < p.board.length := List.indexOf_lt_length.mpr hmem
  have hilen : i < p.board.length := by omega
  simp only [slideC]
  split
  · exact ⟨hsz, hperm, hbv⟩
  · split
    next hcol =>
      split
      next hgt => exact ⟨hsz, (chainDec_perm _ _ _ _ _ hblt).trans hperm, hbv⟩
      next hngt =>
        split
        next hlt =>
          have hcol' : i % p.size = blankIC p % p.size := by simpa using hcol
          have hdvd : p.size ∣ i - blankIC p :=
            (Nat.modEq_iff_dvd' (le_of_lt hlt)).mp hcol'.symm
          exact ⟨hsz, (chainInc_perm _ _ _ _ _ (by omega) hilen hdvd).trans hperm, hbv⟩
        next hnlt => exact ⟨hsz, hperm, hbv⟩
    next hncol =>
      split
      · split
        next hgt => exact ⟨hsz, (chainDec_perm _ _ _ _ _ hblt).trans hperm, hbv⟩
        next hngt =>
          split
          next hlt =>
            exact ⟨hsz, (chainInc_perm _ _ _ _ _ (by omega) hilen (one_dvd _)).trans hperm, hbv⟩
          next hnlt => exact ⟨hsz, hperm, hbv⟩
      · exact ⟨hsz, hperm, hbv⟩

theorem invC_randomizeC :
    ∀ (css : List (List Nat)) (p p' : PuzzleC), InvC p → randomizeC p css = some p' →
      InvC p' := by
  intro css
  induction css with
  | nil => intro p p' _ h; simp [randomizeC] at h
  | cons cs rest ih =>
    intro p p' hp h
    obtain ⟨hsz, hperm, hbv⟩ := hp
    have hstep : InvC { p with board := shuffleJS p.board cs } :=
      ⟨hsz, (shuffleJS_perm p.board cs).trans hperm, hbv⟩
    simp only [randomizeC] at h
    by_cases hsv : solvableC { p with board := shuffleJS p.board cs }
    · rw [if_pos hsv] at h
      exact Option.some.inj h ▸ hstep
    · rw [if_neg hsv] at h
      exact ih _ _ hstep h

theorem invC_of_reachC (p : PuzzleC) (h : ReachC p) : InvC p := by
  induction h with
  | init size hsz => exact invC_init size hsz
  | slide p i hi hp ih => exact invC_slide p i hi ih
  | rand p p' css hp h ih => exact invC_randomizeC css p p' ih h

theorem solvedA_mk (size : Nat) : solvedA (mkPuzzleA size) = true := by
  show (List.range (size * size)).enum.all
    (fun q => (List.range (size * size))[q.1]? == some q.2) = true
  rw [List.all_eq_true, List.forall_mem_enum]
  intro i hi
  simp [List.getElem?_eq_getElem hi]

theorem solvedC_mk (size : Nat) : solvedC (mkPuzzleC size) = true := by
  show (List.range (size * size)).enum.all
    (fun q => (List.range (size * size))[q.1]? == some q.2) = true
  rw [List.all_eq_true, List.forall_mem_enum]
  intro i hi
  simp [List.getElem?_eq_getElem hi]

/-- C9: for every size ≥ 2, a freshly constructed engine's board equals the identity
sequence 0, 1, ..., size^2-1 in order, and solved()/isSolved() returns true on it
(both the fifteen.js and the part_001 variant). -/
theorem c9_fresh_engine_identity_and_solved (size : Nat) (h : 2 ≤ size) :
    (mkPuzzleA size).board = List.range (size * size) ∧ solvedA (mkPuzzleA size) = true ∧
    (mkPuzzleC size).board = List.range (size * size) ∧ solvedC (mkPuzzleC size) = true :=
  ⟨rfl, solvedA_mk size, rfl, solvedC_mk size⟩

/-- Witness for C9 at size 3. -/
theorem c9_fresh_engine_identity_and_solved_witness :
    2 ≤ 3 ∧ ((mkPuzzleA 3).board = List.range (3 * 3) ∧ solvedA (mkPuzzleA 3) = true ∧
      (mkPuzzleC 3).board = List.range (3 * 3) ∧ solvedC (mkPuzzleC 3) = true) :=
  ⟨by decide, c9_fresh_engine_identity_and_solved 3 (by decide)⟩

/-- C7 counterexample: the constructors perform no validation of `size`, so
`new Puzzle(1)` yields a perfectly usable engine: its board is the identity permutation
`[0]` and `solved()` reports true, in both variants.  Construction with `size < 2` does
not fail. -/
theorem c7_counterexample :
    (mkPuzzleA 1).board = [0] ∧ solvedA (mkPuzzleA 1) = true ∧
    (mkPuzzleC 1).board = [0] ∧ solvedC (mkPuzzleC 1) = true := by decide

/-- C7 amended: construction with size < 2 succeeds rather than failing: the
constructor has no size check, and for every size < 2 it yields an engine whose board
is the identity permutation of 0..size^2-1 with solved() true (both variants). -/
theorem c7_construction_has_no_size_check (size : Nat) (h : size < 2) :
    (mkPuzzleA size).board = List.range (size * size) ∧ solvedA (mkPuzzleA size) = true ∧
    (mkPuzzleC size).board = List.range (size * size) ∧ solvedC (mkPuzzleC size) = true :=
  ⟨rfl, solvedA_mk size, rfl, solvedC_mk size⟩

/-- Witness for the amended C7 at size 1. -/
theorem c7_construction_has_no_size_check_witness :
    1 < 2 ∧ ((mkPuzzleA 1).board = List.range (1 * 1) ∧ solvedA (mkPuzzleA 1) = true ∧
      (mkPuzzleC 1).board = List.range (1 * 1) ∧ solvedC (mkPuzzleC 1) = true) :=
  ⟨by decide, c7_construction_has_no_size_check 1 (by decide)⟩

/-- C2: every board reachable from construction (size ≥ 2) through any sequence of
slide calls on valid positions and completed randomize calls is a permutation of
0..size^2-1 — each identifier occurs exactly once (both variants). -/
theorem c2_reachable_board_is_permutation :
    (∀ p : PuzzleA, ReachA p → p.board.Perm (List.range (p.size * p.size))) ∧
    (∀ p : PuzzleC, ReachC p → p.board.Perm (List.range (p.size * p.size))) :=
  ⟨fun p hp => (invA_of_reachA p hp).2.1, fun p hp => (invC_of_reachC p hp).2.1⟩

/-- Witness for C2 at the freshly-built size-2 engines. -/
theorem c2_reachable_board_is_permutation_witness :
    (mkPuzzleA 2).board.Perm (List.range ((mkPuzzleA 2).size * (mkPuzzleA 2).size)) ∧
    (mkPuzzleC 2).board.Perm (List.range ((mkPuzzleC 2).size * (mkPuzzleC 2).size)) :=
  ⟨c2_reachable_board_is_permutation.1 _ (ReachA.init 2 (by decide)),
   c2_reachable_board_is_permutation.2 _ (ReachC.init 2 (by decide))⟩

theorem nodup_getD_inj (l : List Nat) (hnd : l.Nodup) {i j : Nat}
    (hi : i < l.length) (hj : j < l.length) (h : l.getD i 0 = l.getD j 0) : i = j := by
  rw [getD_eq_getElem _ _ hi, getD_eq_getElem _ _ hj] at h
  exact (List.Nodup.getElem_inj_iff hnd).mp h

/-- C8: in the caching implementation (fifteen.js), in every reachable state — after
construction, after each randomize and after each slide — the cached blank coordinates
point at a cell holding the blank value, and any board index holding the blank value
has exactly the cached coordinates (the cache matches the unique position of the
blank). -/
theorem c8_blank_cache_matches_board (p : PuzzleA) (hp : ReachA p) :
    p.board.getD (p.size * p.blank_y + p.blank_x) 0 = p.blank_val ∧
    ∀ k, k < p.board.length → p.board.getD k 0 = p.blank_val →
      p.blank_x = k % p.size ∧ p.blank_y = k / p.size := by
  obtain ⟨hsz, hperm, hbv, hbx, hby, hcache, _⟩ := invA_of_reachA p hp
  refine ⟨hcache, ?_⟩
  intro k hk hkv
  have hnd : p.board.Nodup := hperm.nodup_iff.mpr (List.nodup_range _)
  have hlen : p.board.length = p.size * p.size :=
    hperm.length_eq.trans (List.length_range _)
  have hbi : p.size * p.blank_y + p.blank_x < p.board.length := by
    have := cell_index_lt hbx hby
    omega
  have hkbi : k = p.size * p.blank_y + p.blank_x :=
    nodup_getD_inj p.board hnd hk hbi (hkv.trans hcache.symm)
  subst hkbi
  exact ⟨(cell_index_mod hbx).symm, (cell_index_div hbx).symm⟩

/-- Witness for C8 at the freshly-built size-2 engine. -/
theorem c8_blank_cache_matches_board_witness :
    (mkPuzzleA 2).board.getD
      ((mkPuzzleA 2).size * (mkPuzzleA 2).blank_y + (mkPuzzleA 2).blank_x) 0
      = (mkPuzzleA 2).blank_val ∧
    ∀ k, k < (mkPuzzleA 2).board.length →
      (mkPuzzleA 2).board.getD k 0 = (mkPuzzleA 2).blank_val →
      (mkPuzzleA 2).blank_x = k % (mkPuzzleA 2).size ∧
      (mkPuzzleA 2).blank_y = k / (mkPuzzleA 2).size :=
  c8_blank_cache_matches_board (mkPuzzleA 2) (ReachA.init 2 (by decide))

/-- C5: in both move models an illegal target returns false and leaves the engine
state (board included) completely unchanged; no error is raised (the functions are
total).  Illegality is the spec's condition: squared distance to the blank differs
from 1 in the adjacent-only model; target equal to the blank (sharing both
coordinates) or sharing neither row nor column in the chain-slide model. -/
theorem c5_illegal_slide_noop :
    (∀ (p : PuzzleA) (id : Nat),
        ((id % p.size : Int) - (p.blank_x : Int)) ^ 2
          + ((id / p.size : Int) - (p.blank_y : Int)) ^ 2 ≠ 1 →
        slideA p id = (p, false)) ∧
    (∀ (p : PuzzleC) (i : Nat),
        ((i % p.size = blankIC p % p.size ∧ i / p.size = blankIC p / p.size) ∨
          (i % p.size ≠ blankIC p % p.size ∧ i / p.size ≠ blankIC p / p.size)) →
        slideC p i = (p, false)) := by
  constructor
  · intro p id h
    simp only [slideA]
    rw [if_neg (by simpa using h)]
  · intro p i h
    simp only [slideC]
    rcases h with ⟨h1, h2⟩ | ⟨h1, h2⟩
    · have hc : (i % p.size == blankIC p % p.size && i / p.size == blankIC p / p.size) = true := by
        simp [h1, h2]
      rw [if_pos hc]
    · have hc1 : ¬(i % p.size == blankIC p % p.size && i / p.size == blankIC p / p.size) = true := by
        simp [h1]
      have hc2 : ¬(i % p.size == blankIC p % p.size) = true := by simp [h1]
      have hc3 : ¬(i / p.size == blankIC p / p.size) = true := by simp [h2]
      rw [if_neg hc1, if_neg hc2, if_neg hc3]

/-- Witness for C5: on the solved size-2 boards, target 0 is diagonal from the blank
and is illegal in both models; both calls return false with the state unchanged. -/
theorem c5_illegal_slide_noop_witness :
    (((0 % (mkPuzzleA 2).size : Int) - ((mkPuzzleA 2).blank_x : Int)) ^ 2
        + ((0 / (mkPuzzleA 2).size : Int) - ((mkPuzzleA 2).blank_y : Int)) ^ 2 ≠ 1) ∧
    slideA (mkPuzzleA 2) 0 = (mkPuzzleA 2, false) ∧
    slideC (mkPuzzleC 2) 0 = (mkPuzzleC 2, false) :=
  ⟨by decide, c5_illegal_slide_noop.1 (mkPuzzleA 2) 0 (by decide),
   c5_illegal_slide_noop.2 (mkPuzzleC 2) 0 (by decide)⟩

/-- C6: whenever randomize()/shuffle() returns (the rejection loop accepts a
permutation), the engine is left in a state where solvable()/isSolvable() is true,
for every size ≥ 2 (both variants). -/
theorem c6_randomize_yields_solvable :
    (∀ (p : PuzzleA) (css : List (List Nat)) (p' : PuzzleA), 2 ≤ p.size →
        randomizeA p css = some p' → solvableA p' = true) ∧
    (∀ (p : PuzzleC) (css : List (List Nat)) (p' : PuzzleC), 2 ≤ p.size →
        randomizeC p css = some p' → solvableC p' = true) := by
  constructor
  · intro p css
    induction css generalizing p with
    | nil => intro p' _ h; simp [randomizeA] at h
    | cons cs rest ih =>
      intro p' hsz h
      simp only [randomizeA] at h
      by_cases hsv : solvableA (randomizeStepA p cs)
      · rw [if_pos hsv] at h
        exact Option.some.inj h ▸ hsv
      · rw [if_neg hsv] at h
        exact ih (randomizeStepA p cs) p' hsz h
  · intro p css
    induction css generalizing p with
    | nil => intro p' _ h; simp [randomizeC] at h
    | cons cs rest ih =>
      intro p' hsz h
      simp only [randomizeC] at h
      by_cases hsv : solvableC { p with board := shuffleJS p.board cs }
      · rw [if_pos hsv] at h
        exact Option.some.inj h ▸ hsv
      · rw [if_neg hsv] at h
        exact ih { p with board := shuffleJS p.board cs } p' hsz h

/-- Witness for C6: with the draw stream [[0,0,0,0]] the shuffle reproduces the
identity permutation of the size-2 board, which is solvable, so randomize accepts it
immediately in both variants. -/
theorem c6_randomize_yields_solvable_witness :
    2 ≤ (mkPuzzleA 2).size ∧
    solvableA { size := 2, board := [0, 1, 2, 3], solvedBoard := [0, 1, 2, 3],
                blank_val := 3, blank_x := 1, blank_y := 1 } = true ∧
    2 ≤ (mkPuzzleC 2).size ∧
    solvableC { size := 2, board := [0, 1, 2, 3], blank_val := 3 } = true :=
  ⟨by decide,
   c6_randomize_yields_solvable.1 (mkPuzzleA 2) [[0, 0, 0, 0]]
     { size := 2, board := [0, 1, 2, 3], solvedBoard := [0, 1, 2, 3],
       blank_val := 3, blank_x := 1, blank_y := 1 : PuzzleA } (by decide) (by decide),
   by decide,
   c6_randomize_yields_solvable.2 (mkPuzzleC 2) [[0, 0, 0, 0]]
     { size := 2, board := [0, 1, 2, 3], blank_val := 3 } (by decide) (by decide)⟩

/-- C1 counterexample: on the freshly built size-2 board (an even size), the code's
solvable() returns true, yet the claim's right-hand side — parity of the blank's row
counted zero-based from the bottom edge, `size - 1 - y`, being odd, compared with
inversions being even — is false (the blank sits on row `size - 1`, so
`size - 1 - y = 0` is even while inversions `= 0` is even).  The claimed equivalence
fails in both variants. -/
theorem c1_counterexample :
    ¬(solvableA (mkPuzzleA 2) =
        ((((mkPuzzleA 2).size - 1 - (mkPuzzleA 2).blank_y) % 2 == 1) ==
          (inversions (mkPuzzleA 2).size (mkPuzzleA 2).board % 2 == 0))) ∧
    ¬(solvableC (mkPuzzleC 2) =
        ((((mkPuzzleC 2).size - 1 - blankIC (mkPuzzleC 2) / (mkPuzzleC 2).size) % 2 == 1) ==
          (inversions (mkPuzzleC 2).size (mkPuzzleC 2).board % 2 == 0))) := by decide

/-- C1 amended: for every engine with even size (and the blank's row in range —
automatic in reachable states), solvable() returns true iff the parity of the blank's
row counted from the bottom edge ONE-based (row `size - y` for zero-based top-down
`y`, which for even size has the same parity as `y` itself, the quantity the code
tests) being odd equals inversions() mod 2 == 0.  Both variants. -/
theorem c1_even_size_solvable_row_parity :
    (∀ p : PuzzleA, p.size % 2 = 0 → p.blank_y < p.size →
        solvableA p = (((p.size - p.blank_y) % 2 == 1) ==
          (inversions p.size p.board % 2 == 0))) ∧
    (∀ p : PuzzleC, p.size % 2 = 0 → blankIC p < p.size * p.size →
        solvableC p = (((p.size - blankIC p / p.size) % 2 == 1) ==
          (inversions p.size p.board % 2 == 0))) := by
  constructor
  · intro p hsz hby
    simp only [solvableA, hsz]
    have h2 : p.blank_y % 2 = 0 ∨ p.blank_y % 2 = 1 := by omega
    rcases h2 with h2 | h2
    · have h3 : (p.size - p.blank_y) % 2 = 0 := by omega
      rw [h2, h3]
      simp
    · have h3 : (p.size - p.blank_y) % 2 = 1 := by omega
      rw [h2, h3]
      simp
  · intro p hsz hb
    have hpos : 0 < p.size := by
      rcases Nat.eq_zero_or_pos p.size with h0 | hpos
      · rw [h0] at hb; simp at hb
      · exact hpos
    have hby : blankIC p / p.size < p.size := by
      rw [Nat.div_lt_iff_lt_mul hpos]
      omega
    simp only [solvableC, hsz]
    have h2 : blankIC p / p.size % 2 = 0 ∨ blankIC p / p.size % 2 = 1 := by omega
    rcases h2 with h2 | h2
    · have h3 : (p.size - blankIC p / p.size) % 2 = 0 := by omega
      rw [h2, h3]
      simp
    · have h3 : (p.size - blankIC p / p.size) % 2 = 1 := by omega
      rw [h2, h3]
      simp

/-- Witness for the amended C1 at the freshly built size-2 engines. -/
theorem c1_even_size_solvable_row_parity_witness :
    (mkPuzzleA 2).size % 2 = 0 ∧ (mkPuzzleA 2).blank_y < (mkPuzzleA 2).size ∧
    blankIC (mkPuzzleC 2) < (mkPuzzleC 2).size * (mkPuzzleC 2).size ∧
    solvableA (mkPuzzleA 2) = ((((mkPuzzleA 2).size - (mkPuzzleA 2).blank_y) % 2 == 1) ==
      (inversions (mkPuzzleA 2).size (mkPuzzleA 2).board % 2 == 0)) ∧
    solvableC (mkPuzzleC 2) =
      ((((mkPuzzleC 2).size - blankIC (mkPuzzleC 2) / (mkPuzzleC 2).size) % 2 == 1) ==
        (inversions (mkPuzzleC 2).size (mkPuzzleC 2).board % 2 == 0)) :=
  ⟨by decide, by decide, by decide,
   c1_even_size_solvable_row_parity.1 (mkPuzzleA 2) (by decide) (by decide),
   c1_even_size_solvable_row_parity.2 (mkPuzzleC 2) (by decide) (by decide)⟩

/-- C3: in the adjacent-only model, for a valid board position id (with the cached
blank coordinates pointing at the blank), slide(id) succeeds exactly when the squared
Euclidean distance between id's coordinates and the blank's coordinates is 1 — for
integer coordinates that is precisely Euclidean distance 1, so diagonal and distant
targets fail — and on success the tile at id and the blank are swapped in the board
and the recorded blank location becomes id's coordinates. -/
theorem c3_adjacent_slide_success_iff_and_effect (p : PuzzleA) (id : Nat)
    (hid : id < p.size * p.size)
    (hcache : p.board.getD (p.size * p.blank_y + p.blank_x) 0 = p.blank_val) :
    ((slideA p id).2 = true ↔
      (((id % p.size : Nat) : Int) - (p.blank_x : Int)) ^ 2
        + (((id / p.size : Nat) : Int) - (p.blank_y : Int)) ^ 2 = 1) ∧
    ((slideA p id).2 = true →
      (slideA p id).1.board = listSwap p.board (p.size * p.blank_y + p.blank_x) id ∧
      (slideA p id).1.blank_x = id % p.size ∧
      (slideA p id).1.blank_y = id / p.size) := by
  by_cases h : (((id % p.size : Nat) : Int) - (p.blank_x : Int)) ^ 2
      + (((id / p.size : Nat) : Int) - (p.blank_y : Int)) ^ 2 = 1
  · have hb : ((((id % p.size : Nat) : Int) - (p.blank_x : Int)) ^ 2
        + (((id / p.size : Nat) : Int) - (p.blank_y : Int)) ^ 2 == 1) = true := by
      simpa using h
    have hslide : slideA p id =
        ({ p with
            board := (p.board.set (p.size * p.blank_y + p.blank_x)
              (p.board.getD id 0)).set id p.blank_val,
            blank_x := id % p.size, blank_y := id / p.size }, true) := by
      simp only [slideA]
      rw [if_pos hb]
    rw [hslide]
    refine ⟨by simpa using h, fun _ => ⟨?_, rfl, rfl⟩⟩
    show (p.board.set (p.size * p.blank_y + p.blank_x) (p.board.getD id 0)).set id
        p.blank_val = listSwap p.board (p.size * p.blank_y + p.blank_x) id
    rw [listSwap, hcache]
  · have hb : ¬((((id % p.size : Nat) : Int) - (p.blank_x : Int)) ^ 2
        + (((id / p.size : Nat) : Int) - (p.blank_y : Int)) ^ 2 == 1) = true := by
      simpa using h
    have hslide : slideA p id = (p, false) := by
      simp only [slideA]
      rw [if_neg hb]
    rw [hslide]
    exact ⟨by simpa using h, by simp⟩

/-- Witness for C3: on the solved size-2 board, position 1 is orthogonally adjacent to
the blank at position 3; the slide succeeds, swaps the two cells and re-caches the
blank at (1, 0). -/
theorem c3_adjacent_slide_success_iff_and_effect_witness :
    1 < (mkPuzzleA 2).size * (mkPuzzleA 2).size ∧
    (mkPuzzleA 2).board.getD
      ((mkPuzzleA 2).size * (mkPuzzleA 2).blank_y + (mkPuzzleA 2).blank_x) 0
      = (mkPuzzleA 2).blank_val ∧
    (((slideA (mkPuzzleA 2) 1).2 = true ↔
      (((1 % (mkPuzzleA 2).size : Nat) : Int) - ((mkPuzzleA 2).blank_x : Int)) ^ 2
        + (((1 / (mkPuzzleA 2).size : Nat) : Int) - ((mkPuzzleA 2).blank_y : Int)) ^ 2 = 1) ∧
    ((slideA (mkPuzzleA 2) 1).2 = true →
      (slideA (mkPuzzleA 2) 1).1.board =
        listSwap (mkPuzzleA 2).board
          ((mkPuzzleA 2).size * (mkPuzzleA 2).blank_y + (mkPuzzleA 2).blank_x) 1 ∧
      (slideA (mkPuzzleA 2) 1).1.blank_x = 1 % (mkPuzzleA 2).size ∧
      (slideA (mkPuzzleA 2) 1).1.blank_y = 1 / (mkPuzzleA 2).size)) :=
  ⟨by decide, by decide,
   c3_adjacent_slide_success_iff_and_effect (mkPuzzleA 2) 1 (by decide) (by decide)⟩

/-- C10: in the adjacent-only model, a successful slide(id) on a consistent engine
state changes the board at exactly two indices: index id receives the blank value,
the blank's previous index receives the tile value previously at id, both cells
really change, and every other board entry is unchanged. -/
theorem c10_adjacent_slide_two_cell_frame (p : PuzzleA) (id : Nat)
    (hlen : p.board.length = p.size * p.size)
    (hid : id < p.size * p.size)
    (hbx : p.blank_x < p.size) (hby : p.blank_y < p.size)
    (hcache : p.board.getD (p.size * p.blank_y + p.blank_x) 0 = p.blank_val)
    (hnd : p.board.Nodup)
    (hsucc : (slideA p id).2 = true) :
    (slideA p id).1.board.getD id 0 = p.blank_val ∧
    (slideA p id).1.board.getD (p.size * p.blank_y + p.blank_x) 0 = p.board.getD id 0 ∧
    (slideA p id).1.board.getD id 0 ≠ p.board.getD id 0 ∧
    (slideA p id).1.board.getD (p.size * p.blank_y + p.blank_x) 0
      ≠ p.board.getD (p.size * p.blank_y + p.blank_x) 0 ∧
    ∀ k, k < p.board.length → k ≠ id → k ≠ p.size * p.blank_y + p.blank_x →
      (slideA p id).1.board.getD k 0 = p.board.getD k 0 := by
  have hb : ((((id % p.size : Nat) : Int) - (p.blank_x : Int)) ^ 2
      + (((id / p.size : Nat) : Int) - (p.blank_y : Int)) ^ 2 == 1) = true := by
    by_contra hc
    simp only [slideA] at hsucc
    rw [if_neg hc] at hsucc
    exact absurd hsucc (by simp)
  have hleg : (((id % p.size : Nat) : Int) - (p.blank_x : Int)) ^ 2
      + (((id / p.size : Nat) : Int) - (p.blank_y : Int)) ^ 2 = 1 := by
    simpa using hb
  have hslide1 : (slideA p id).1 =
      { p with
          board := (p.board.set (p.size * p.blank_y + p.blank_x)
            (p.board.getD id 0)).set id p.blank_val,
          blank_x := id % p.size, blank_y := id / p.size } := by
    simp only [slideA]
    rw [if_pos hb]
  have hbi : p.size * p.blank_y + p.blank_x < p.board.length := by
    have := cell_index_lt hbx hby
    omega
  have hid' : id < p.board.length := by omega
  have hne : id ≠ p.size * p.blank_y + p.blank_x := by
    intro hcontra
    have hx : id % p.size = p.blank_x := by rw [hcontra]; exact cell_index_mod hbx
    have hy : id / p.size = p.blank_y := by rw [hcontra]; exact cell_index_div hbx
    rw [hx, hy] at hleg
    simp at hleg
  have hval_id : p.board.getD id 0 ≠ p.blank_val := by
    intro hcontra
    exact hne (nodup_getD_inj p.board hnd hid' hbi (hcontra.trans hcache.symm))
  rw [hslide1]
  dsimp only
  have hid2 : id < (p.board.set (p.size * p.blank_y + p.blank_x) (p.board.getD id 0)).length := by
    simpa using hid'
  refine ⟨?_, ?_, ?_, ?_, ?_⟩
  · rw [getD_set_self _ id _ hid2]
  · rw [getD_set_ne _ _ hne, getD_set_self _ _ _ hbi]
  · rw [getD_set_self _ id _ hid2]
    exact Ne.symm hval_id
  · rw [getD_set_ne _ _ hne, getD_set_self _ _ _ hbi, hcache]
    exact hval_id
  · intro k hk hkid hkbi
    rw [getD_set_ne _ _ (Ne.symm hkid), getD_set_ne _ _ (Ne.symm hkbi)]

/-- Witness for C10: the successful slide of position 1 on the solved size-2 board
changes exactly cells 1 and 3. -/
theorem c10_adjacent_slide_two_cell_frame_witness :
    (mkPuzzleA 2).board.length = (mkPuzzleA 2).size * (mkPuzzleA 2).size ∧
    (slideA (mkPuzzleA 2) 1).2 = true ∧
    ((slideA (mkPuzzleA 2) 1).1.board.getD 1 0 = (mkPuzzleA 2).blank_val ∧
    (slideA (mkPuzzleA 2) 1).1.board.getD
      ((mkPuzzleA 2).size * (mkPuzzleA 2).blank_y + (mkPuzzleA 2).blank_x) 0
      = (mkPuzzleA 2).board.getD 1 0 ∧
    (slideA (mkPuzzleA 2) 1).1.board.getD 1 0 ≠ (mkPuzzleA 2).board.getD 1 0 ∧
    (slideA (mkPuzzleA 2) 1).1.board.getD
      ((mkPuzzleA 2).size * (mkPuzzleA 2).blank_y + (mkPuzzleA 2).blank_x) 0
      ≠ (mkPuzzleA 2).board.getD
        ((mkPuzzleA 2).size * (mkPuzzleA 2).blank_y + (mkPuzzleA 2).blank_x) 0 ∧
    ∀ k, k < (mkPuzzleA 2).board.length → k ≠ 1 →
      k ≠ (mkPuzzleA 2).size * (mkPuzzleA 2).blank_y + (mkPuzzleA 2).blank_x →
      (slideA (mkPuzzleA 2) 1).1.board.getD k 0 = (mkPuzzleA 2).board.getD k 0) :=
  ⟨by decide, by decide,
   c10_adjacent_slide_two_cell_frame (mkPuzzleA 2) 1 (by decide) (by decide) (by decide)
     (by decide) (by decide) (by decide) (by decide)⟩

/-- C4: in the chain-slide model, for a valid board position i, slide(i) succeeds
exactly when i shares its row or its column with the blank but is not the blank
itself; on success every tile between i and the blank's original position (inclusive
of i, exclusive of the blank) shifts one cell toward the blank's original position,
the blank ends up at position i, and all other cells are unchanged — i.e. the new
board agrees pointwise with the spec-side effect description `chainSlideEffect`. -/
theorem c4_chain_slide_success_iff_and_effect (p : PuzzleC) (i : Nat)
    (hs : 0 < p.size)
    (hlen : p.board.length = p.size * p.size)
    (hi : i < p.size * p.size)
    (hmem : p.blank_val ∈ p.board) :
    ((slideC p i).2 = true ↔
      ((i % p.size = blankIC p % p.size ∨ i / p.size = blankIC p / p.size) ∧
        i ≠ blankIC p)) ∧
    ((slideC p i).2 = true →
      ∀ q, q < p.board.length →
        (slideC p i).1.board.getD q 0 =
          chainSlideEffect p.size p.blank_val p.board i (blankIC p) q) := by
  have hb : blankIC p < p.board.length := List.indexOf_lt_length.mpr hmem
  have hgetb : p.board.getD (blankIC p) 0 = p.blank_val :=
    getD_indexOf p.board p.blank_val hmem
  have hib : i = blankIC p ↔
      (i % p.size = blankIC p % p.size ∧ i / p.size = blankIC p / p.size) := by
    constructor
    · intro h; rw [h]; exact ⟨rfl, rfl⟩
    · rintro ⟨h1, h2⟩
      have e1 := Nat.div_add_mod i p.size
      have e2 := Nat.div_add_mod (blankIC p) p.size
      rw [h1, h2] at e1
      omega
  by_cases hx : i % p.size = blankIC p % p.size
  · by_cases hy : i / p.size = blankIC p / p.size
    · -- i is the blank itself: refused
      have hieqb : i = blankIC p := hib.mpr ⟨hx, hy⟩
      have hslide : slideC p i = (p, false) := by
        simp only [slideC]
        rw [if_pos (show (i % p.size == blankIC p % p.size
          && i / p.size == blankIC p / p.size) = true by simp [hx, hy])]
      rw [hslide]
      constructor
      · simp only [Bool.false_eq_true, false_iff]
        rintro ⟨_, hne⟩
        exact hne hieqb
      · intro hcontra
        simp at hcontra
    · -- shared column, different row: vertical chain slide
      have hne : i ≠ blankIC p := fun hcontra => hy (hib.mp hcontra).2
      have hcond1 : ¬(i % p.size == blankIC p % p.size
          && i / p.size == blankIC p / p.size) = true := by simp [hy]
      have hcond2 : (i % p.size == blankIC p % p.size) = true := by simp [hx]
      have hstep : slideStep p.size i (blankIC p) = p.size := by
        simp [slideStep, hx]
      rcases Nat.lt_trichotomy i (blankIC p) with hlt | heq | hgt
      · -- blank below: loop decreasing from the blank
        have hdvd : p.size ∣ blankIC p - i := (Nat.modEq_iff_dvd' (le_of_lt hlt)).mp hx
        obtain ⟨n, hn⟩ := hdvd
        have hcomm : p.size * n = n * p.size := Nat.mul_comm _ _
        have hbn : blankIC p = i + n * p.size := by omega
        have hnpos : 1 ≤ n := by
          rcases Nat.eq_zero_or_pos n with hn0 | hnp
          · subst hn0; omega
          · exact hnp
        have hnle : n ≤ n * p.size := Nat.le_mul_of_pos_right n hs
        have hslide : slideC p i =
            ({ p with board := chainDec (blankIC p) p.board (blankIC p) i p.size }, true) := by
          simp only [slideC]
          rw [if_neg hcond1, if_pos hcond2, if_pos hlt]
        rw [hslide]
        refine ⟨by simp [hx, hne], fun _ => ?_⟩
        intro q hq
        dsimp only
        have hspec := chainDec_spec i p.size hs n (blankIC p) p.board
          (by omega) (by omega) q hq
        rw [← hbn] at hspec
        rw [hspec]
        simp only [chainSlideEffect, hstep]
        split_ifs with h1 h2 h3 h4 h5 h6
        · exact hgetb
        · rfl
        · exact absurd h4.1 (by omega)
        · exact absurd ⟨hlt, h2.1, h2.2.1, h2.2.2⟩ h3
        · exact absurd ⟨h5.2.1, h5.2.2.1, h5.2.2.2⟩ h2
        · exact absurd h6.1 (by omega)
        · rfl
      · exact absurd heq hne
      · -- blank above: loop increasing from the blank
        have hdvd : p.size ∣ i - blankIC p := (Nat.modEq_iff_dvd' (le_of_lt hgt)).mp hx.symm
        obtain ⟨n, hn⟩ := hdvd
        have hcomm : p.size * n = n * p.size := Nat.mul_comm _ _
        have hbn : i = blankIC p + n * p.size := by omega
        have hnle : n ≤ n * p.size := Nat.le_mul_of_pos_right n hs
        have hngt : ¬(blankIC p > i) := by omega
        have hslide : slideC p i =
            ({ p with board := chainInc i p.board (blankIC p) i p.size }, true) := by
          simp only [slideC]
          rw [if_neg hcond1, if_pos hcond2, if_neg hngt, if_pos hgt]
        rw [hslide]
        refine ⟨by simp [hx, hne], fun _ => ?_⟩
        intro q hq
        dsimp only
        have hspec := chainInc_spec p.size hs n i (blankIC p) p.board
          (by omega) (by omega) q hq
        rw [← hbn] at hspec
        rw [hspec]
        simp only [chainSlideEffect, hstep]
        split_ifs with h1 h2 h3 h4 h5 h6
        · exact hgetb
        · exact absurd h3.1 (by omega)
        · -- lemma-chain holds, spec third condition holds: same shift
          rfl
        · -- lemma-chain holds but spec third condition fails: impossible
          have hdq : p.size ∣ i - q := by
            have heq : i - q = (i - blankIC p) - (q - blankIC p) := by omega
            rw [heq, hn]
            exact Nat.dvd_sub' (Dvd.intro n rfl) h2.2.2
          exact absurd ⟨hgt, h2.1, h2.2.1, hdq⟩ h4
        · exact absurd h5.1 (by omega)
        · -- spec third condition holds but lemma-chain fails: impossible
          have hdq : p.size ∣ q - blankIC p := by
            have heq : q - blankIC p = (i - blankIC p) - (i - q) := by omega
            rw [heq, hn]
            exact Nat.dvd_sub' (Dvd.intro n rfl) h6.2.2.2
          exact absurd ⟨h6.2.1, h6.2.2.1, hdq⟩ h2
        · rfl
  · by_cases hy : i / p.size = blankIC p / p.size
    · -- shared row, different column: horizontal chain slide
      have hne : i ≠ blankIC p := fun hcontra => hx (hib.mp hcontra).1
      have hcond1 : ¬(i % p.size == blankIC p % p.size
          && i / p.size == blankIC p / p.size) = true := by simp [hx]
      have hcond2 : ¬(i % p.size == blankIC p % p.size) = true := by simp [hx]
      have hcond3 : (i / p.size == blankIC p / p.size) = true := by simp [hy]
      have hstep : slideStep p.size i (blankIC p) = 1 := by
        simp [slideStep, hx]
      rcases Nat.lt_trichotomy i (blankIC p) with hlt | heq | hgt
      · have hbn : blankIC p = i + (blankIC p - i) * 1 := by omega
        have hslide : slideC p i =
            ({ p with board := chainDec (blankIC p) p.board (blankIC p) i 1 }, true) := by
          simp only [slideC]
          rw [if_neg hcond1, if_neg hcond2, if_pos hcond3, if_pos hlt]
        rw [hslide]
        refine ⟨by simp [hy, hne], fun _ => ?_⟩
        intro q hq
        dsimp only
        have hspec := chainDec_spec i 1 (by omega) (blankIC p - i) (blankIC p) p.board
          (by omega) (by omega) q hq
        rw [← hbn] at hspec
        rw [hspec]
        simp only [chainSlideEffect, hstep]
        split_ifs with h1 h2 h3 h4 h5 h6
        · exact hgetb
        · rfl
        · exact absurd h4.1 (by omega)
        · exact absurd ⟨hlt, h2.1, h2.2.1, h2.2.2⟩ h3
        · exact absurd ⟨h5.2.1, h5.2.2.1, h5.2.2.2⟩ h2
        · exact absurd h6.1 (by omega)
        · rfl
      · exact absurd heq hne
      · have hbn : i = blankIC p + (i - blankIC p) * 1 := by omega
        have hngt : ¬(blankIC p > i) := by omega
        have hslide : slideC p i =
            ({ p with board := chainInc i p.board (blankIC p) i 1 }, true) := by
          simp only [slideC]
          rw [if_neg hcond1, if_neg hcond2, if_pos hcond3, if_neg hngt, if_pos hgt]
        rw [hslide]
        refine ⟨by simp [hy, hne], fun _ => ?_⟩
        intro q hq
        dsimp only
        have hspec := chainInc_spec 1 (by omega) (i - blankIC p) i (blankIC p) p.board
          (by omega) (by omega) q hq
        rw [← hbn] at hspec
        rw [hspec]
        simp only [chainSlideEffect, hstep]
        split_ifs with h1 h2 h3 h4 h5 h6
        · exact hgetb
        · exact absurd h3.1 (by omega)
        · rfl
        · exact absurd ⟨hgt, h2.1, h2.2.1, one_dvd _⟩ h4
        · exact absurd h5.1 (by omega)
        · exact absurd ⟨h6.2.1, h6.2.2.1, one_dvd _⟩ h2
        · rfl
    · -- neither row nor column shared: refused
      have hcond1 : ¬(i % p.size == blankIC p % p.size
          && i / p.size == blankIC p / p.size) = true := by simp [hx]
      have hcond2 : ¬(i % p.size == blankIC p % p.size) = true := by simp [hx]
      have hcond3 : ¬(i / p.size == blankIC p / p.size) = true := by simp [hy]
      have hslide : slideC p i = (p, false) := by
        simp only [slideC]
        rw [if_neg hcond1, if_neg hcond2, if_neg hcond3]
      rw [hslide]
      constructor
      · simp only [Bool.false_eq_true, false_iff]
        rintro ⟨h | h, _⟩
        · exact hx h
        · exact hy h
      · intro hcontra
        simp at hcontra

/-- Witness for C4: on the solved 3×3 board, position 2 shares its column with the
blank at position 8; the slide succeeds and the whole column segment shifts. -/
theorem c4_chain_slide_success_iff_and_effect_witness :
    0 < (mkPuzzleC 3).size ∧
    (mkPuzzleC 3).board.length = (mkPuzzleC 3).size * (mkPuzzleC 3).size ∧
    2 < (mkPuzzleC 3).size * (mkPuzzleC 3).size ∧
    (mkPuzzleC 3).blank_val ∈ (mkPuzzleC 3).board ∧
    (((slideC (mkPuzzleC 3) 2).2 = true ↔
      ((2 % (mkPuzzleC 3).size = blankIC (mkPuzzleC 3) % (mkPuzzleC 3).size ∨
        2 / (mkPuzzleC 3).size = blankIC (mkPuzzleC 3) / (mkPuzzleC 3).size) ∧
        2 ≠ blankIC (mkPuzzleC 3))) ∧
    ((slideC (mkPuzzleC 3) 2).2 = true →
      ∀ q, q < (mkPuzzleC 3).board.length →
        (slideC (mkPuzzleC 3) 2).1.board.getD q 0 =
          chainSlideEffect (mkPuzzleC 3).size (mkPuzzleC 3).blank_val (mkPuzzleC 3).board
            2 (blankIC (mkPuzzleC 3)) q)) :=
  ⟨by decide, by decide, by decide, by decide,
   c4_chain_slide_success_iff_and_effect (mkPuzzleC 3) 2 (by decide) (by decide)
     (by decide) (by decide)⟩
